import Mathlib

/-!
Verification of `fix_viewmodel.py`: a one-shot patcher that reads one file with
encoding `utf-8-sig`, applies two literal `str.replace` substitutions in order
(`old_notif -> new_notif`, then `old_close -> new_close`), writes the result
back with encoding `utf-8-sig`, and prints one confirmation line.

The embedding works on decoded text as `List Char` (Python `str` is a sequence
of code points).  `pyReplaceL` is Python's `str.replace` for all occurrences,
greedy and left to right.  The `utf-8-sig` codec and Python's text mode are
modelled at the code-point level: reading strips one leading U+FEFF if present
and applies universal-newline translation (CRLF and lone CR become LF);
writing prepends U+FEFF and expands LF to `os.linesep`, which is CRLF on the
Windows host that the script's hardcoded `C:\...` path targets.
-/

set_option maxRecDepth 20000

namespace FixViewmodel

/-! ### Constants from the source -/

def file_path : String := "C:\\git\\lapriselemay_solution#1\\QuickLauncher\\ViewModels\\LauncherViewModel.cs"

def old_notif : String := "            var message = action.ActionType switch\n            \x7b\n                FileActionType.CopyUrl => \"URL copiée\",\n                FileActionType.Delete => \"Envoyé à la corbeille\",\n                _ => null\n            \x7d;"

def new_notif : String := "            var message = action.ActionType switch\n            \x7b\n                FileActionType.CopyUrl => \"🔗 URL copiée\",\n                FileActionType.CopyPath => \"📋 Chemin copié\",\n                FileActionType.CopyName => \"📋 Nom copié\",\n                FileActionType.Compress => \"🗜️ Archive ZIP créée\",\n                FileActionType.SendByEmail => \"📧 Email en cours...\",\n                FileActionType.Delete => \"🗑️ Envoyé à la corbeille\",\n                _ => null\n            \x7d;"

def old_close : String := "            // Fermer après certaines actions\n            if (action.ActionType is FileActionType.Open \n                or FileActionType.RunAsAdmin \n                or FileActionType.OpenPrivate)\n            \x7b\n                _indexingService.RecordUsage(result);\n                RequestHide?.Invoke(this, EventArgs.Empty);\n            \x7d\n        \x7d\n        \n        ShowActionsPanel = false;\n    \x7d"

def new_close : String := "            // Fermer après les actions qui ouvrent quelque chose\n            if (action.ActionType is FileActionType.Open \n                or FileActionType.RunAsAdmin \n                or FileActionType.OpenPrivate\n                or FileActionType.OpenWith\n                or FileActionType.OpenLocation\n                or FileActionType.OpenInTerminal\n                or FileActionType.OpenInExplorer\n                or FileActionType.OpenInVSCode\n                or FileActionType.EditInEditor\n                or FileActionType.SendByEmail)\n            \x7b\n                _indexingService.RecordUsage(result);\n                RequestHide?.Invoke(this, EventArgs.Empty);\n            \x7d\n        \x7d\n        else\n        \x7b\n            if (action.ActionType == FileActionType.OpenInVSCode)\n                ShowNotification?.Invoke(this, \"❌ VS Code introuvable\");\n        \x7d\n        \n        ShowActionsPanel = false;\n    \x7d"

/-! ### Python `str.replace` (all occurrences, greedy, left to right) -/

/-- Fuel-driven worker for `str.replace`; with fuel at least `s.length` and a
nonempty pattern it is the exact greedy left-to-right scan. -/
def replaceAllF (p r : List Char) : Nat → List Char → List Char
  | 0, s => s
  | _ + 1, [] => []
  | fuel + 1, c :: cs =>
    if p.isPrefixOf (c :: cs) then r ++ replaceAllF p r fuel ((c :: cs).drop p.length)
    else c :: replaceAllF p r fuel cs

/-- Python `s.replace(p, r)` on code-point lists, including Python's semantics
for the empty pattern (the replacement is inserted around every character). -/
def pyReplaceL (p r s : List Char) : List Char :=
  if p = [] then r ++ s.foldr (fun c acc => c :: (r ++ acc)) []
  else replaceAllF p r s.length s

/-- Python `s.replace(p, r)` on strings. -/
def pyReplace (p r s : String) : String := ⟨pyReplaceL p.toList r.toList s.toList⟩

/-- The two replacement rules, in the order the script applies them. -/
def rules : List (String × String) := [(old_notif, new_notif), (old_close, new_close)]

/-- The in-memory transformation the script performs on the file's text. -/
def patchText (T : String) : String := rules.foldl (fun t pr => pyReplace pr.1 pr.2 t) T

/-- Observable outcome of one run: final text, whether the file was written
back, and the lines printed to standard output. -/
structure RunResult where
  output : String
  wrote : Bool
  stdout : List String

def confirmationLine : String := "ViewModel updated successfully"

/-- One run of the script on text `T` (the part after a successful read):
both `open(file_path, 'w')`/`write` and the final `print` are unconditional
straight-line statements in the source. -/
def runPatcher (T : String) : RunResult := ⟨patchText T, true, [confirmationLine]⟩

/-! ### The `utf-8-sig` codec, modelled on code points -/

def bomChar : Char := '\uFEFF'

/-- Decoding with `utf-8-sig`: strip one leading U+FEFF if present. -/
def readUtf8SigL : List Char → List Char
  | [] => []
  | c :: cs => if c = bomChar then cs else c :: cs

/-- Universal-newline translation of Python text-mode reading (`newline=None`):
CRLF and lone CR both decode to LF. -/
def readNewlines : List Char → List Char
  | [] => []
  | [c] => if c = '\r' then ['\n'] else [c]
  | c :: d :: rest =>
    if c = '\r' then
      if d = '\n' then '\n' :: readNewlines rest else '\n' :: readNewlines (d :: rest)
    else c :: readNewlines (d :: rest)

/-- Newline translation of Python text-mode writing: LF is expanded to
`os.linesep`, which is CRLF on the Windows host the hardcoded path targets. -/
def writeNewlines : List Char → List Char
  | [] => []
  | c :: cs => if c = '\n' then '\r' :: '\n' :: writeNewlines cs else c :: writeNewlines cs

/-- Every newline in the list is a CRLF pair: no lone CR and no lone LF.
Exactly these files survive the text-mode read/write round trip unchanged. -/
def crlfNormalB : List Char → Bool
  | [] => true
  | [c] => if c = '\r' then false else if c = '\n' then false else true
  | c :: d :: rest =>
    if c = '\r' then (if d = '\n' then crlfNormalB rest else false)
    else if c = '\n' then false
    else crlfNormalB (d :: rest)

/-- The text the script actually operates on after `open(..., 'r',
encoding='utf-8-sig')`: BOM strip by the codec, then universal newlines. -/
def readFile (F : String) : String := ⟨readNewlines (readUtf8SigL F.toList)⟩

/-- A whole run at the file level: the file's decoded content goes in, the
decoded content of the rewritten file comes out.  The `utf-8-sig` text-mode
writer emits a BOM first and expands every LF of the in-memory text to CRLF. -/
def runOnFile (F : String) : String :=
  ⟨bomChar :: writeNewlines (patchText (readFile F)).toList⟩

/-! ### Occurrence predicates -/

/-- `p` occurs in `s` as a contiguous literal substring. -/
def occurs (p s : List Char) : Prop := ∃ a b, s = a ++ p ++ b

abbrev occursS (p s : String) : Prop := occurs p.toList s.toList

/-- Shorthand for the patterns and replacements as code-point lists. -/
abbrev p1L : List Char := old_notif.toList

abbrev r1L : List Char := new_notif.toList

abbrev p2L : List Char := old_close.toList

abbrev r2L : List Char := new_close.toList

def occursB (p : List Char) : List Char → Bool
  | [] => p.isEmpty
  | c :: cs => p.isPrefixOf (c :: cs) || occursB p cs

/-- Some nonempty suffix of `xs` begins `ys`. -/
def SufPre (xs ys : List Char) : Prop := ∃ a b t, xs = a ++ b ∧ b ≠ [] ∧ ys = b ++ t

def anySufPre : List Char → List Char → Bool
  | [], _ => false
  | c :: cs, ys => (c :: cs).isPrefixOf ys || anySufPre cs ys

/-- Join pieces with a separator: the shape of a greedy replace decomposition. -/
def joinWith (sep : List Char) : List (List Char) → List Char
  | [] => []
  | [u] => u
  | u :: v :: us => u ++ sep ++ joinWith sep (v :: us)

/-! ### Helper texts for the claims -/

def copyPathLine : String := "                FileActionType.CopyPath => \"📋 Chemin copié\","

def copyNameLine : String := "                FileActionType.CopyName => \"📋 Nom copié\","

def compressLine : String := "                FileActionType.Compress => \"🗜️ Archive ZIP créée\","

def emailLine : String := "                FileActionType.SendByEmail => \"📧 Email en cours...\","

def deleteLineNew16 : String := "                FileActionType.Delete => \"🗑️ Envoyé à la corbeille\","

/-- The four inserted mapping lines followed immediately by the new Delete
line, in the order they stand inside `new_notif`. -/
def insertedBlock : String :=
  copyPathLine ++ "\n" ++ copyNameLine ++ "\n" ++ compressLine ++ "\n" ++ emailLine ++ "\n" ++ deleteLineNew16

def claimDeleteOld : String := "FileActionType.Delete => \"Envoyé à la corbeille\","

def claimDeleteNew : String := "FileActionType.Delete => \"🗑️ Envoyé à la corbeille\","

def extendedCond : String := "if (action.ActionType is FileActionType.Open \n                or FileActionType.RunAsAdmin \n                or FileActionType.OpenPrivate\n                or FileActionType.OpenWith\n                or FileActionType.OpenLocation\n                or FileActionType.OpenInTerminal\n                or FileActionType.OpenInExplorer\n                or FileActionType.OpenInVSCode\n                or FileActionType.EditInEditor\n                or FileActionType.SendByEmail)"

def elseBranch : String := "else\n        \x7b\n            if (action.ActionType == FileActionType.OpenInVSCode)\n                ShowNotification?.Invoke(this, \"❌ VS Code introuvable\");"

/-- A close-after-action condition listing only the three original action
types, but on a single line: formatting drift the exact-match rule misses. -/
def oneLineCond : String := "if (action.ActionType is FileActionType.Open or FileActionType.RunAsAdmin or FileActionType.OpenPrivate) \x7b RecordUsage(result); \x7d"

def vsLine : String := "ShowNotification?.Invoke(this, \"❌ VS Code introuvable\");"

/-- `old_notif` with its first space removed: a block differing from the
pattern by exactly one whitespace character. -/
def nearMissNotif : String := ⟨old_notif.toList.tail⟩

/-- `old_close` with its first space removed. -/
def nearMissClose : String := ⟨old_close.toList.tail⟩

/-- A small file whose decoded content starts with a BOM. -/
def bomFile : String := ⟨bomChar :: "hi".toList⟩

/-- A BOM-prefixed file with a lone LF newline: match-free, but not in the
CRLF form the text-mode round trip preserves. -/
def bomLfFile : String := ⟨bomChar :: 'a' :: '\n' :: 'b' :: []⟩

/-- A BOM-less file with a lone LF newline. -/
def lfFile : String := "a\nb"

/-! ### Basic lemmas on strings and appends -/

theorem toList_inj : ∀ {s t : String}, s.toList = t.toList → s = t := by
  rintro ⟨l⟩ ⟨m⟩ h
  simpa using congrArg String.mk h

theorem toList_append (a b : String) : (a ++ b).toList = a.toList ++ b.toList := by
  cases a; cases b; rfl

theorem appSplit : ∀ {a b c d : List Char}, a ++ b = c ++ d →
    (∃ w, c = a ++ w ∧ b = w ++ d) ∨ (∃ w, a = c ++ w ∧ d = w ++ b) := by
  intro a
  induction a with
  | nil =>
    intro b c d h
    exact Or.inl ⟨c, by simp, by simpa using h⟩
  | cons x xs ih =>
    intro b c d h
    cases c with
    | nil => exact Or.inr ⟨x :: xs, by simp, by simpa using h.symm⟩
    | cons y ys =>
      have h' : x :: (xs ++ b) = y :: (ys ++ d) := by simpa using h
      injection h' with h1 h2
      subst h1
      rcases ih h2 with ⟨w, hw1, hw2⟩ | ⟨w, hw1, hw2⟩
      · exact Or.inl ⟨w, by simp [hw1], hw2⟩
      · exact Or.inr ⟨w, by simp [hw1], hw2⟩

theorem isPrefixOf_iff : ∀ {p s : List Char}, p.isPrefixOf s = true ↔ ∃ t, s = p ++ t := by
  intro p
  induction p with
  | nil => intro s; simp [List.isPrefixOf]
  | cons c cs ih =>
    intro s
    cases s with
    | nil => simp [List.isPrefixOf]
    | cons d ds =>
      simp only [List.isPrefixOf, Bool.and_eq_true, beq_iff_eq]
      constructor
      · rintro ⟨rfl, h⟩
        obtain ⟨t, rfl⟩ := ih.mp h
        exact ⟨t, rfl⟩
      · rintro ⟨t, h⟩
        injection h with h1 h2
        exact ⟨h1.symm, ih.mpr ⟨t, h2⟩⟩

/-! ### Lemmas about `occurs` -/

theorem occurs_iff : ∀ {p s : List Char}, occurs p s ↔ occursB p s = true := by
  intro p s
  induction s with
  | nil =>
    constructor
    · rintro ⟨a, b, h⟩
      rcases List.append_eq_nil.mp h.symm with ⟨h1, rfl⟩
      rcases List.append_eq_nil.mp h1 with ⟨rfl, rfl⟩
      rfl
    · intro h
      cases p with
      | nil => exact ⟨[], [], rfl⟩
      | cons c cs => simp [occursB, List.isEmpty] at h
  | cons c cs ih =>
    simp only [occursB, Bool.or_eq_true]
    constructor
    · rintro ⟨a, b, h⟩
      cases a with
      | nil => exact Or.inl (isPrefixOf_iff.mpr ⟨b, by simpa using h⟩)
      | cons d ds =>
        have h' : c :: cs = d :: ((ds ++ p) ++ b) := by simpa using h
        injection h' with _ h2
        exact Or.inr (ih.mp ⟨ds, b, h2⟩)
    · rintro (h | h)
      · obtain ⟨t, ht⟩ := isPrefixOf_iff.mp h
        exact ⟨[], t, by simpa using ht⟩
      · obtain ⟨a, b, hab⟩ := ih.mpr h
        exact ⟨c :: a, b, by simp [hab]⟩

theorem not_occurs {p s : List Char} (h : occursB p s = false) : ¬ occurs p s := by
  intro hc
  exact absurd (occurs_iff.mp hc) (by simp [h])

theorem not_sufPre : ∀ {xs ys : List Char}, anySufPre xs ys = false → ¬ SufPre xs ys := by
  intro xs
  induction xs with
  | nil =>
    rintro ys - ⟨a, b, t, h1, h2, h3⟩
    rcases List.append_eq_nil.mp h1.symm with ⟨-, rfl⟩
    exact h2 rfl
  | cons c cs ih =>
    intro ys h
    have h' : (c :: cs).isPrefixOf ys = false ∧ anySufPre cs ys = false := by
      constructor
      · cases hx : (c :: cs).isPrefixOf ys
        · rfl
        · simp [anySufPre, hx] at h
      · cases hx : anySufPre cs ys
        · rfl
        · simp [anySufPre, hx] at h
    rintro ⟨a, b, t, h1, h2, h3⟩
    cases a with
    | nil =>
      have hb : b = c :: cs := by simpa using h1.symm
      subst hb
      have : (c :: cs).isPrefixOf ys = true := isPrefixOf_iff.mpr ⟨t, h3⟩
      rw [this] at h'
      exact absurd h'.1 (by simp)
    | cons d ds =>
      have h1' : c :: cs = d :: (ds ++ b) := by simpa using h1
      injection h1' with _ h1''
      exact ih h'.2 ⟨ds, b, t, h1'', h2, h3⟩

theorem occurs_cons {p cs : List Char} (c : Char) (h : occurs p cs) : occurs p (c :: cs) := by
  obtain ⟨a, b, rfl⟩ := h
  exact ⟨c :: a, b, by simp⟩

theorem occurs_app_left {p s : List Char} (x : List Char) (h : occurs p s) : occurs p (x ++ s) := by
  obtain ⟨a, b, rfl⟩ := h
  exact ⟨x ++ a, b, by simp⟩

theorem occurs_app_right {p s : List Char} (x : List Char) (h : occurs p s) : occurs p (s ++ x) := by
  obtain ⟨a, b, rfl⟩ := h
  exact ⟨a, b ++ x, by simp⟩

theorem occurs_factor {B u s : List Char} (h1 : occurs B u) (h2 : occurs u s) : occurs B s := by
  obtain ⟨x, y, rfl⟩ := h2
  simpa [List.append_assoc] using occurs_app_left x (occurs_app_right y h1)

theorem occurs_refl (p : List Char) : occurs p p := ⟨[], [], by simp⟩

/-! ### Equations for `pyReplaceL` -/

theorem replaceAllF_nil (p r : List Char) : ∀ f, replaceAllF p r f [] = [] := by
  intro f
  cases f <;> rfl

theorem replaceAllF_fuel {p : List Char} (r : List Char) (hp : p ≠ []) :
    ∀ n m s, s.length ≤ n → s.length ≤ m → replaceAllF p r n s = replaceAllF p r m s := by
  intro n
  induction n with
  | zero =>
    intro m s hn _
    have hs : s = [] := List.length_eq_zero.mp (Nat.le_zero.mp hn)
    subst hs
    rw [replaceAllF_nil, replaceAllF_nil]
  | succ n ih =>
    intro m s hn hm
    cases s with
    | nil => rw [replaceAllF_nil, replaceAllF_nil]
    | cons c cs =>
      cases m with
      | zero => simp at hm
      | succ m =>
        have hp1 : 0 < p.length := List.length_pos.mpr hp
        have hn' : cs.length ≤ n := by simp [List.length_cons] at hn; omega
        have hm' : cs.length ≤ m := by simp [List.length_cons] at hm; omega
        cases hpp : p.isPrefixOf (c :: cs)
        · simp only [replaceAllF, hpp]
          exact congrArg (c :: ·) (ih m cs hn' hm')
        · simp only [replaceAllF, hpp, if_true]
          refine congrArg (r ++ ·) (ih m _ ?_ ?_) <;> · simp [List.length_drop]; omega

theorem pyReplaceL_nil {p : List Char} (hp : p ≠ []) (r : List Char) : pyReplaceL p r [] = [] := by
  rw [pyReplaceL, if_neg hp]
  rfl

theorem pyReplaceL_pos {p r s : List Char} (hp : p ≠ []) (hpp : p.isPrefixOf s = true) :
    pyReplaceL p r s = r ++ pyReplaceL p r (s.drop p.length) := by
  cases s with
  | nil =>
    cases p with
    | nil => exact absurd rfl hp
    | cons c cs => simp [List.isPrefixOf] at hpp
  | cons c cs =>
    have hp1 : 0 < p.length := List.length_pos.mpr hp
    rw [pyReplaceL, pyReplaceL, if_neg hp, if_neg hp]
    simp only [List.length_cons, replaceAllF, hpp, if_true]
    refine congrArg (r ++ ·) (replaceAllF_fuel r hp cs.length _ _ ?_ (Nat.le_refl _))
    simp [List.length_drop]
    omega

theorem pyReplaceL_neg {p r : List Char} {c : Char} {cs : List Char} (hp : p ≠ [])
    (hpp : p.isPrefixOf (c :: cs) = false) :
    pyReplaceL p r (c :: cs) = c :: pyReplaceL p r cs := by
  rw [pyReplaceL, pyReplaceL, if_neg hp, if_neg hp]
  simp [List.length_cons, replaceAllF, hpp]

theorem pyReplaceL_noop {p r : List Char} (hp : p ≠ []) :
    ∀ s, ¬ occurs p s → pyReplaceL p r s = s := by
  intro s
  induction s with
  | nil => intro _; exact pyReplaceL_nil hp r
  | cons c cs ih =>
    intro h
    cases hpp : p.isPrefixOf (c :: cs)
    · rw [pyReplaceL_neg hp hpp, ih (fun hc => h (occurs_cons c hc))]
    · obtain ⟨t, ht⟩ := isPrefixOf_iff.mp hpp
      exact absurd ⟨[], t, by simpa using ht⟩ h

theorem pyReplaceL_double {p r : List Char} (hp : p ≠ []) :
    pyReplaceL p r (p ++ p) = r ++ r := by
  have h1 : p.isPrefixOf (p ++ p) = true := isPrefixOf_iff.mpr ⟨p, rfl⟩
  rw [pyReplaceL_pos hp h1, List.drop_left]
  have h2 : p.isPrefixOf p = true := isPrefixOf_iff.mpr ⟨[], by simp⟩
  rw [pyReplaceL_pos hp h2, List.drop_length, pyReplaceL_nil hp]
  simp

/-! ### The greedy decomposition of a replace run -/

theorem decomp (p r : List Char) (hp : p ≠ []) :
    ∀ s, ∃ parts : List (List Char), parts ≠ [] ∧ joinWith p parts = s ∧
      joinWith r parts = pyReplaceL p r s ∧ ∀ u ∈ parts, ¬ occurs p u := by
  have nilfree : ¬ occurs p ([] : List Char) := by
    rintro ⟨a, b, hab⟩
    rcases List.append_eq_nil.mp hab.symm with ⟨h1, -⟩
    rcases List.append_eq_nil.mp h1 with ⟨-, h2⟩
    exact hp h2
  have main : ∀ n s, s.length ≤ n → ∃ parts : List (List Char), parts ≠ [] ∧
      joinWith p parts = s ∧ joinWith r parts = pyReplaceL p r s ∧ ∀ u ∈ parts, ¬ occurs p u := by
    intro n
    induction n with
    | zero =>
      intro s hs
      have h0 : s = [] := List.length_eq_zero.mp (Nat.le_zero.mp hs)
      subst h0
      refine ⟨[[]], by simp, rfl, ?_, ?_⟩
      · rw [pyReplaceL_nil hp]; rfl
      · intro u hu
        simp at hu
        subst hu
        exact nilfree
    | succ n ih =>
      intro s hs
      cases s with
      | nil => exact ih [] (by simp)
      | cons c cs =>
        have hcs : cs.length ≤ n := by simp [List.length_cons] at hs; omega
        cases hpp : p.isPrefixOf (c :: cs)
        · -- no match at the head: prepend `c` to the first piece
          obtain ⟨parts, hne, hj, hr, hfree⟩ := ih cs hcs
          cases parts with
          | nil => exact absurd rfl hne
          | cons v us =>
            have hjoin : joinWith p ((c :: v) :: us) = c :: cs := by
              cases us with
              | nil => simp only [joinWith] at hj ⊢; rw [hj]
              | cons w ws =>
                simp only [joinWith] at hj ⊢
                rw [← hj]
                simp [List.append_assoc]
            have hnopfx : ∀ X : List Char, c :: cs ≠ p ++ X := by
              intro X hX
              exact absurd (isPrefixOf_iff.mpr ⟨X, hX⟩) (by simp [hpp])
            refine ⟨(c :: v) :: us, by simp, hjoin, ?_, ?_⟩
            · rw [pyReplaceL_neg hp hpp, ← hr]
              cases us with
              | nil => simp [joinWith]
              | cons w ws => simp [joinWith, List.append_assoc]
            · intro u hu
              rcases List.mem_cons.mp hu with rfl | hu
              · rintro ⟨a, b, hab⟩
                cases a with
                | nil =>
                  -- a head occurrence of p would extend to a prefix of `c :: cs`
                  have habn : c :: v = p ++ b := by simpa using hab
                  rcases us with - | ⟨w, ws⟩
                  · simp only [joinWith] at hjoin
                    exact hnopfx b (hjoin.symm.trans habn)
                  · simp only [joinWith] at hjoin
                    have : c :: cs = p ++ (b ++ (p ++ joinWith p (w :: ws))) := by
                      rw [← hjoin, habn]
                      simp [List.append_assoc]
                    exact hnopfx _ this
                | cons d ds =>
                  have hab' : c :: v = d :: (ds ++ p ++ b) := by simpa [List.append_assoc] using hab
                  injection hab' with _ h2
                  exact hfree v (by simp) ⟨ds, b, by simpa [List.append_assoc] using h2⟩
              · exact hfree u (by simp [hu])
        · -- match at the head: emit an empty piece and recurse past `p`
          obtain ⟨t, ht⟩ := isPrefixOf_iff.mp hpp
          have hp1 : 0 < p.length := List.length_pos.mpr hp
          have hlt : t.length ≤ n := by
            have hlen := congrArg List.length ht
            simp [List.length_append, List.length_cons] at hlen
            simp [List.length_cons] at hs
            omega
          obtain ⟨parts, hne, hj, hr, hfree⟩ := ih t hlt
          cases parts with
          | nil => exact absurd rfl hne
          | cons v us =>
            refine ⟨[] :: v :: us, by simp, ?_, ?_, ?_⟩
            · simp only [joinWith]
              rw [hj]
              simpa using ht.symm
            · simp only [joinWith]
              rw [hr, pyReplaceL_pos hp hpp, ht, List.drop_left]
              simp
            · intro u hu
              rcases List.mem_cons.mp hu with rfl | hu
              · exact nilfree
              · exact hfree u hu
  intro s
  exact main s.length s (Nat.le_refl _)

/-! ### Replacement creates no occurrence of the pattern -/

theorem nn_join {p r : List Char} (hp : p ≠ []) (hpr : ¬ occurs p r) (hrp : ¬ occurs r p)
    (hsp : ¬ SufPre p r) (hrs : ¬ SufPre r p) :
    ∀ parts : List (List Char), (∀ u ∈ parts, ¬ occurs p u) → ¬ occurs p (joinWith r parts) := by
  intro parts
  induction parts with
  | nil =>
    intro _
    rintro ⟨a, b, hab⟩
    rcases List.append_eq_nil.mp hab.symm with ⟨h1, -⟩
    rcases List.append_eq_nil.mp h1 with ⟨-, h2⟩
    exact hp h2
  | cons u us ihp =>
    intro hfree
    cases us with
    | nil => exact hfree u (by simp)
    | cons v vs =>
      have ihJ : ¬ occurs p (joinWith r (v :: vs)) := ihp (fun w hw => hfree w (by simp [hw]))
      have hu : ¬ occurs p u := hfree u (by simp)
      rintro ⟨a, b, hab⟩
      simp only [joinWith] at hab
      rw [List.append_assoc, List.append_assoc] at hab
      rcases appSplit hab with ⟨w, hw1, hw2⟩ | ⟨w, hw1, hw2⟩
      · -- the occurrence starts at or after the end of `u`
        rcases appSplit hw2 with ⟨y, hy1, hy2⟩ | ⟨y, hy1, hy2⟩
        · exact ihJ ⟨y, b, by rw [hy2, List.append_assoc]⟩
        · rcases appSplit hy2 with ⟨z, hz1, hz2⟩ | ⟨z, hz1, hz2⟩
          · exact hpr ⟨w, z, by rw [hy1, hz1, List.append_assoc]⟩
          · rcases eq_or_ne y [] with rfl | hyne
            · simp only [List.nil_append] at hz1
              exact ihJ ⟨[], b, by simp [hz2, hz1]⟩
            · rcases eq_or_ne z [] with rfl | hzne
              · exact hpr ⟨w, [], by simp [hy1, hz1]⟩
              · exact hrs ⟨w, y, z, hy1, hyne, hz1⟩
      · -- the occurrence starts inside `u`
        rcases appSplit hw2 with ⟨z, hz1, hz2⟩ | ⟨z, hz1, hz2⟩
        · exact hu ⟨a, z, by rw [hw1, hz1, List.append_assoc]⟩
        · rcases eq_or_ne w [] with rfl | hwne
          · -- the occurrence starts exactly where `r` starts
            simp only [List.nil_append] at hz1
            subst hz1
            rcases appSplit hz2.symm with ⟨y, hy1, hy2⟩ | ⟨y, hy1, hy2⟩
            · exact hpr ⟨[], y, by simpa using hy1⟩
            · rcases eq_or_ne y [] with rfl | hyne
              · exact hpr ⟨[], [], by simpa using hy1.symm⟩
              · exact hrp ⟨[], y, by simpa using hy1⟩
          · rcases appSplit hz2 with ⟨y, hy1, hy2⟩ | ⟨y, hy1, hy2⟩
            · exact hrp ⟨w, y, by rw [hz1, hy1, List.append_assoc]⟩
            · rcases eq_or_ne z [] with rfl | hzne
              · simp only [List.append_nil] at hz1
                exact hu ⟨a, [], by simp [hw1, hz1]⟩
              · exact hsp ⟨w, z, y, hz1, hzne, hy1⟩

/-! ### Replacement preserves occurrences of an unrelated block -/

theorem preserve_aux {p B : List Char} (r : List Char) (hp : p ≠ []) (hob : ¬ occurs p B) (hsb : ¬ SufPre B p) :
    ∀ n s E a, s.length ≤ n → a ≠ [] → B = a ++ E → (∃ t, s = E ++ t) →
      ∃ t, pyReplaceL p r s = E ++ t := by
  intro n
  induction n with
  | zero =>
    intro s E a hs _ _ hEx
    obtain ⟨t, hst⟩ := hEx
    have h0 : s = [] := List.length_eq_zero.mp (Nat.le_zero.mp hs)
    subst h0
    rcases List.append_eq_nil.mp hst.symm with ⟨rfl, rfl⟩
    exact ⟨[], by rw [pyReplaceL_nil hp]; rfl⟩
  | succ n ih =>
    intro s E a hs hane hBE hEx
    obtain ⟨t, hst⟩ := hEx
    cases E with
    | nil => exact ⟨pyReplaceL p r s, rfl⟩
    | cons e E' =>
      subst hst
      rw [List.cons_append]
      cases hpp : p.isPrefixOf (e :: (E' ++ t))
      · rw [pyReplaceL_neg hp hpp]
        have hlen : (E' ++ t).length ≤ n := by
          simp [List.length_append, List.length_cons] at hs
          simp [List.length_append]
          omega
        obtain ⟨t', ht'⟩ := ih (E' ++ t) E' (a ++ [e]) hlen (by simp)
          (by rw [hBE]; simp) ⟨t, rfl⟩
        exact ⟨t', by rw [ht', List.cons_append]⟩
      · obtain ⟨w, hw⟩ := isPrefixOf_iff.mp hpp
        rw [← List.cons_append] at hw
        rcases appSplit hw with ⟨y, hy1, hy2⟩ | ⟨y, hy1, hy2⟩
        · -- the nonempty tail of B that begins here is a prefix of p
          exact absurd ⟨a, e :: E', y, hBE, by simp, hy1⟩ hsb
        · -- p fits inside the tail of B: p occurs in B
          exact absurd ⟨a, y, by rw [hBE, hy1, List.append_assoc]⟩ hob

theorem preserve {p r B : List Char} (hp : p ≠ []) (hpB : ¬ occurs p B) (hBp : ¬ occurs B p)
    (hspB : ¬ SufPre p B) (hsBp : ¬ SufPre B p) :
    ∀ s, occurs B s → occurs B (pyReplaceL p r s) := by
  have main : ∀ n s, s.length ≤ n → occurs B s → occurs B (pyReplaceL p r s) := by
    intro n
    induction n with
    | zero =>
      intro s hs hocc
      have h0 : s = [] := List.length_eq_zero.mp (Nat.le_zero.mp hs)
      subst h0
      rw [pyReplaceL_nil hp]
      exact hocc
    | succ n ih =>
      intro s hs hocc
      cases s with
      | nil => rw [pyReplaceL_nil hp]; exact hocc
      | cons c cs =>
        have hcs : cs.length ≤ n := by simp [List.length_cons] at hs; omega
        cases hpp : p.isPrefixOf (c :: cs)
        · rw [pyReplaceL_neg hp hpp]
          obtain ⟨a, b, hab⟩ := hocc
          cases a with
          | nil =>
            cases hB : B with
            | nil => exact ⟨[], c :: pyReplaceL p r cs, by simp⟩
            | cons e B' =>
              rw [hB] at hab
              have hab' : c :: cs = e :: (B' ++ b) := by simpa using hab
              injection hab' with h1 h2
              subst h1
              obtain ⟨t', ht'⟩ := preserve_aux r hp hpB hsBp n cs B' [c] hcs (by simp)
                (by rw [hB]; rfl) ⟨b, h2⟩
              exact ⟨[], t', by rw [ht']; simp⟩
          | cons d ds =>
            have hab' : c :: cs = d :: (ds ++ (B ++ b)) := by simpa [List.append_assoc] using hab
            injection hab' with _ h2
            exact occurs_cons c (ih cs hcs ⟨ds, b, by rw [h2, List.append_assoc]⟩)
        · obtain ⟨t, ht⟩ := isPrefixOf_iff.mp hpp
          have hp1 : 0 < p.length := List.length_pos.mpr hp
          have hlt : t.length ≤ n := by
            have hlen := congrArg List.length ht
            simp [List.length_cons, List.length_append] at hlen
            simp [List.length_cons] at hs
            omega
          rw [pyReplaceL_pos hp hpp, ht, List.drop_left]
          obtain ⟨a, b, hab⟩ := hocc
          rw [ht, List.append_assoc] at hab
          rcases appSplit hab with ⟨w, hw1, hw2⟩ | ⟨w, hw1, hw2⟩
          · -- the occurrence lies inside `t`
            exact occurs_app_left r (ih t hlt ⟨w, b, by rw [hw2, List.append_assoc]⟩)
          · -- the occurrence starts inside `p`
            rcases appSplit hw2 with ⟨z, hz1, hz2⟩ | ⟨z, hz1, hz2⟩
            · exact absurd ⟨a, z, by rw [hw1, hz1, List.append_assoc]⟩ hBp
            · rcases eq_or_ne w [] with rfl | hwne
              · simp only [List.nil_append] at hz1
                exact occurs_app_left r (ih t hlt ⟨[], b, by simp [hz2, hz1]⟩)
              · rcases eq_or_ne z [] with rfl | hzne
                · simp only [List.append_nil] at hz1
                  exact absurd ⟨a, [], by simp [hw1, hz1]⟩ hBp
                · exact absurd ⟨a, w, z, hw1, hwne, hz1⟩ hspB
  intro s
  exact main s.length s (Nat.le_refl _)

/-! ### Corollaries used to settle the claims -/

theorem joinWith_factor {sep : List Char} :
    ∀ parts (u : List Char), u ∈ parts → ∃ x y, joinWith sep parts = x ++ u ++ y := by
  intro parts
  induction parts with
  | nil => intro u hu; simp at hu
  | cons v us ihp =>
    intro u hu
    rcases List.mem_cons.mp hu with rfl | hu
    · cases us with
      | nil => exact ⟨[], [], by simp [joinWith]⟩
      | cons w ws => exact ⟨[], sep ++ joinWith sep (w :: ws), by simp [joinWith, List.append_assoc]⟩
    · cases us with
      | nil => simp at hu
      | cons w ws =>
        obtain ⟨x, y, hxy⟩ := ihp u hu
        exact ⟨v ++ sep ++ x, y, by simp [joinWith, hxy, List.append_assoc]⟩

theorem joinWith_has_sep {sep : List Char} (u v : List Char) (us : List (List Char)) :
    occurs sep (joinWith sep (u :: v :: us)) :=
  ⟨u, joinWith sep (v :: us), by simp [joinWith, List.append_assoc]⟩

/-- After `pyReplaceL p r`, the pattern `p` no longer occurs anywhere. -/
theorem replace_free {p r : List Char} (hp : p ≠ []) (hpr : ¬ occurs p r) (hrp : ¬ occurs r p)
    (hsp : ¬ SufPre p r) (hrs : ¬ SufPre r p) (s : List Char) :
    ¬ occurs p (pyReplaceL p r s) := by
  obtain ⟨parts, -, -, hr', hfree⟩ := decomp p r hp s
  rw [← hr']
  exact nn_join hp hpr hrp hsp hrs parts hfree

/-- `pyReplaceL p r` keeps a text free of an unrelated pattern `q`. -/
theorem replace_keeps_free {p r q : List Char} (hp : p ≠ []) (hq : q ≠ [])
    (hqr : ¬ occurs q r) (hrq : ¬ occurs r q) (hsq : ¬ SufPre q r) (hrsq : ¬ SufPre r q)
    (s : List Char) (hfree : ¬ occurs q s) : ¬ occurs q (pyReplaceL p r s) := by
  obtain ⟨parts, -, hj, hr', -⟩ := decomp p r hp s
  rw [← hr']
  refine nn_join hq hqr hrq hsq hrsq parts ?_
  intro u hu hocc
  obtain ⟨x, y, hxy⟩ := joinWith_factor parts u hu
  exact hfree (hj ▸ occurs_factor hocc ⟨x, y, hxy⟩)

/-- If the pattern occurred, the output contains the replacement. -/
theorem replace_hits {p r : List Char} (hp : p ≠ []) (s : List Char) (hocc : occurs p s) :
    occurs r (pyReplaceL p r s) := by
  obtain ⟨parts, hne, hj, hr', hfree⟩ := decomp p r hp s
  rw [← hr']
  cases parts with
  | nil => exact absurd rfl hne
  | cons u us =>
    cases us with
    | nil =>
      exfalso
      simp only [joinWith] at hj
      subst hj
      exact hfree u (by simp) hocc
    | cons v vs => exact joinWith_has_sep u v vs

/-! ### Concrete facts about the two hardcoded rules

The checks below are decided by evaluation: neither pattern occurs in either
replacement or in the other pattern, and no nonempty suffix of one string in
each relevant pair is a prefix of the other, so a replacement can never create
a new occurrence of a pattern or destroy an occurrence of the other pattern. -/

theorem p1L_ne : p1L ≠ [] := by decide

theorem p2L_ne : p2L ≠ [] := by decide

theorem occB_p1_r1 : occursB p1L r1L = false := rfl

theorem occB_r1_p1 : occursB r1L p1L = false := rfl

theorem suf_p1_r1 : anySufPre p1L r1L = false := rfl

theorem suf_r1_p1 : anySufPre r1L p1L = false := rfl

theorem occB_p2_r2 : occursB p2L r2L = false := rfl

theorem occB_r2_p2 : occursB r2L p2L = false := rfl

theorem suf_p2_r2 : anySufPre p2L r2L = false := rfl

theorem suf_r2_p2 : anySufPre r2L p2L = false := rfl

theorem occB_p1_r2 : occursB p1L r2L = false := rfl

theorem occB_r2_p1 : occursB r2L p1L = false := rfl

theorem suf_p1_r2 : anySufPre p1L r2L = false := rfl

theorem suf_r2_p1 : anySufPre r2L p1L = false := rfl

theorem occB_p1_p2 : occursB p1L p2L = false := rfl

theorem occB_p2_p1 : occursB p2L p1L = false := rfl

theorem suf_p1_p2 : anySufPre p1L p2L = false := rfl

theorem suf_p2_p1 : anySufPre p2L p1L = false := rfl

theorem occB_p2_ins : occursB p2L insertedBlock.toList = false := rfl

theorem occB_ins_p2 : occursB insertedBlock.toList p2L = false := rfl

theorem suf_p2_ins : anySufPre p2L insertedBlock.toList = false := rfl

theorem suf_ins_p2 : anySufPre insertedBlock.toList p2L = false := rfl

theorem occB_ins_r1 : occursB insertedBlock.toList r1L = true := rfl

theorem occB_dn_ins : occursB claimDeleteNew.toList insertedBlock.toList = true := rfl

theorem occB_ext_r2 : occursB extendedCond.toList r2L = true := rfl

theorem occB_else_r2 : occursB elseBranch.toList r2L = true := rfl

theorem f1_free (s : List Char) : ¬ occurs p1L (pyReplaceL p1L r1L s) :=
  replace_free p1L_ne (not_occurs occB_p1_r1) (not_occurs occB_r1_p1)
    (not_sufPre suf_p1_r1) (not_sufPre suf_r1_p1) s

theorem f2_free (s : List Char) : ¬ occurs p2L (pyReplaceL p2L r2L s) :=
  replace_free p2L_ne (not_occurs occB_p2_r2) (not_occurs occB_r2_p2)
    (not_sufPre suf_p2_r2) (not_sufPre suf_r2_p2) s

theorem f2_keeps_p1_free (s : List Char) (h : ¬ occurs p1L s) :
    ¬ occurs p1L (pyReplaceL p2L r2L s) :=
  replace_keeps_free p2L_ne p1L_ne (not_occurs occB_p1_r2) (not_occurs occB_r2_p1)
    (not_sufPre suf_p1_r2) (not_sufPre suf_r2_p1) s h

theorem f1_keeps_p2 (s : List Char) (h : occurs p2L s) : occurs p2L (pyReplaceL p1L r1L s) :=
  preserve p1L_ne (not_occurs occB_p1_p2) (not_occurs occB_p2_p1)
    (not_sufPre suf_p1_p2) (not_sufPre suf_p2_p1) s h

theorem f2_keeps_inserted (s : List Char) (h : occurs insertedBlock.toList s) :
    occurs insertedBlock.toList (pyReplaceL p2L r2L s) :=
  preserve p2L_ne (not_occurs occB_p2_ins) (not_occurs occB_ins_p2)
    (not_sufPre suf_p2_ins) (not_sufPre suf_ins_p2) s h

theorem patchText_toList (T : String) :
    (patchText T).toList = pyReplaceL p2L r2L (pyReplaceL p1L r1L T.toList) := rfl

theorem patchText_noop {T : String} (h1 : ¬ occursS old_notif T) (h2 : ¬ occursS old_close T) :
    patchText T = T := by
  apply toList_inj
  rw [patchText_toList, pyReplaceL_noop p1L_ne _ h1, pyReplaceL_noop p2L_ne _ h2]

/-! ### Newline translation round trip -/

theorem readNewlines_crlf (rest : List Char) :
    readNewlines ('\r' :: '\n' :: rest) = '\n' :: readNewlines rest := by
  simp [readNewlines]

theorem readNewlines_cons₂ {c : Char} (hc : c ≠ '\r') (d : Char) (rest : List Char) :
    readNewlines (c :: d :: rest) = c :: readNewlines (d :: rest) := by
  simp [readNewlines, hc]

theorem readNewlines_single {c : Char} (hc : c ≠ '\r') : readNewlines [c] = [c] := by
  simp [readNewlines, hc]

theorem writeNewlines_nl (cs : List Char) :
    writeNewlines ('\n' :: cs) = '\r' :: '\n' :: writeNewlines cs := by
  simp [writeNewlines]

theorem writeNewlines_cons {c : Char} (hc : c ≠ '\n') (cs : List Char) :
    writeNewlines (c :: cs) = c :: writeNewlines cs := by
  simp [writeNewlines, hc]

theorem crlfNormalB_cons {c : Char} (hr : c ≠ '\r') (hn : c ≠ '\n') (l : List Char) :
    crlfNormalB (c :: l) = crlfNormalB l := by
  cases l with
  | nil => simp [crlfNormalB, hr, hn]
  | cons d rest => simp [crlfNormalB, hr, hn]

/-- A text whose newlines are all CRLF pairs survives the text-mode read/write
round trip unchanged: CRLF decodes to LF and is re-encoded as CRLF. -/
theorem crlf_roundtrip : ∀ n l, l.length ≤ n → crlfNormalB l = true →
    writeNewlines (readNewlines l) = l := by
  intro n
  induction n with
  | zero =>
    intro l hl _
    have h0 : l = [] := List.length_eq_zero.mp (Nat.le_zero.mp hl)
    subst h0
    rfl
  | succ n ih =>
    intro l hl hn
    cases l with
    | nil => rfl
    | cons c l' =>
      cases l' with
      | nil =>
        by_cases hr : c = '\r'
        · subst hr; simp [crlfNormalB] at hn
        · by_cases hnl : c = '\n'
          · subst hnl; simp [crlfNormalB] at hn
          · rw [readNewlines_single hr, writeNewlines_cons hnl]
            rfl
      | cons d rest =>
        by_cases hr : c = '\r'
        · subst hr
          by_cases hd : d = '\n'
          · subst hd
            have hn' : crlfNormalB rest = true := by simpa [crlfNormalB] using hn
            rw [readNewlines_crlf, writeNewlines_nl,
              ih rest (by simp [List.length_cons] at hl ⊢; omega) hn']
          · simp [crlfNormalB, hd] at hn
        · by_cases hnl : c = '\n'
          · subst hnl; simp [crlfNormalB, hr] at hn
          · have hn' : crlfNormalB (d :: rest) = true := by
              simpa [crlfNormalB, hr, hnl] using hn
            rw [readNewlines_cons₂ hr, writeNewlines_cons hnl,
              ih (d :: rest) (by simp [List.length_cons] at hl ⊢; omega) hn']

theorem crlfRT {l : List Char} (h : crlfNormalB l = true) :
    writeNewlines (readNewlines l) = l :=
  crlf_roundtrip l.length l (Nat.le_refl _) h

/-! ### The claims -/

/-- C1 counterexample: on the text "hello" neither rule pattern occurs and the
output text equals the input, yet the run still writes the file — the write in
the source is unconditional — so "a write occurs iff a pattern was found and
replaced" fails. -/
theorem c1_write_unconditional_cx :
    ¬ occursS old_notif "hello" ∧ ¬ occursS old_close "hello" ∧
    (runPatcher "hello").output = "hello" ∧ (runPatcher "hello").wrote = true := by
  have h1 : ¬ occursS old_notif "hello" := not_occurs rfl
  have h2 : ¬ occursS old_close "hello" := not_occurs rfl
  exact ⟨h1, h2, patchText_noop h1 h2, rfl⟩

/-- C1 (amended): if neither rule pattern occurs in the input text, the output
text equals the input exactly; the file write, however, occurs on every run,
matched or not. -/
theorem c1_noop_text_write_always (T : String)
    (h1 : ¬ occursS old_notif T) (h2 : ¬ occursS old_close T) :
    (runPatcher T).output = T ∧ (runPatcher T).wrote = true :=
  ⟨patchText_noop h1 h2, rfl⟩

theorem c1_noop_text_write_always_w :
    (¬ occursS old_notif "hi" ∧ ¬ occursS old_close "hi") ∧
    ((runPatcher "hi").output = "hi" ∧ (runPatcher "hi").wrote = true) := by
  have h1 : ¬ occursS old_notif "hi" := not_occurs rfl
  have h2 : ¬ occursS old_close "hi" := not_occurs rfl
  exact ⟨⟨h1, h2⟩, c1_noop_text_write_always "hi" h1 h2⟩

/-- C2: the patch transformation is idempotent — applying the two rules to any
text and then applying them again to the result changes nothing, because
neither pattern matches a once-patched text. -/
theorem c2_patch_idempotent (T : String) :
    patchText (patchText T) = patchText T ∧
    ¬ occursS old_notif (patchText T) ∧ ¬ occursS old_close (patchText T) := by
  have h1 : ¬ occurs p1L (patchText T).toList := by
    rw [patchText_toList]
    exact f2_keeps_p1_free _ (f1_free T.toList)
  have h2 : ¬ occurs p2L (patchText T).toList := by
    rw [patchText_toList]
    exact f2_free _
  exact ⟨patchText_noop h1 h2, h1, h2⟩

/-- C3 counterexample: a file consisting of exactly the quoted Delete line is
an input file containing that exact block, yet the run changes nothing — the
rule only matches the whole notification switch block — so the patched file
contains neither the emoji Delete line nor the new CopyPath mapping line. -/
theorem c3_delete_line_alone_cx :
    occursS claimDeleteOld claimDeleteOld ∧
    patchText claimDeleteOld = claimDeleteOld ∧
    ¬ occursS claimDeleteNew (patchText claimDeleteOld) ∧
    ¬ occursS copyPathLine (patchText claimDeleteOld) := by
  have h1 : ¬ occursS old_notif claimDeleteOld := not_occurs rfl
  have h2 : ¬ occursS old_close claimDeleteOld := not_occurs rfl
  have hpt : patchText claimDeleteOld = claimDeleteOld := patchText_noop h1 h2
  refine ⟨occurs_refl _, hpt, ?_, ?_⟩
  · rw [hpt]; exact not_occurs rfl
  · rw [hpt]; exact not_occurs rfl

/-- C3 (amended): for any input text that contains the full old notification
switch block — the pattern the rule actually matches, which includes the
quoted Delete line — the patched text contains the new mapping lines for
CopyPath, CopyName, Compress and SendByEmail, in that exact order, immediately
preceding the new emoji Delete line. -/
theorem c3_full_block_inserts (T : String) (h : occursS old_notif T) :
    occursS insertedBlock (patchText T) ∧ occursS claimDeleteNew (patchText T) := by
  have hstep1 : occurs insertedBlock.toList (pyReplaceL p1L r1L T.toList) :=
    occurs_factor (occurs_iff.mpr occB_ins_r1) (replace_hits p1L_ne T.toList h)
  have hstep2 : occurs insertedBlock.toList (patchText T).toList := by
    rw [patchText_toList]
    exact f2_keeps_inserted _ hstep1
  exact ⟨hstep2, occurs_factor (occurs_iff.mpr occB_dn_ins) hstep2⟩

theorem c3_full_block_inserts_w :
    occursS old_notif old_notif ∧
    (occursS insertedBlock (patchText old_notif) ∧ occursS claimDeleteNew (patchText old_notif)) :=
  ⟨occurs_refl _, c3_full_block_inserts old_notif (occurs_refl _)⟩

/-- C4 counterexample: a file whose close-after-action condition lists exactly
Open, RunAsAdmin and OpenPrivate but on one line is untouched by the run — the
rule only matches the exact multi-line block — so no OpenWith entry and no
"VS Code introuvable" notification line appear. -/
theorem c4_one_line_cond_cx :
    occursS "FileActionType.OpenPrivate" oneLineCond ∧
    patchText oneLineCond = oneLineCond ∧
    ¬ occursS "FileActionType.OpenWith" (patchText oneLineCond) ∧
    ¬ occursS vsLine (patchText oneLineCond) := by
  have h1 : ¬ occursS old_notif oneLineCond := not_occurs rfl
  have h2 : ¬ occursS old_close oneLineCond := not_occurs rfl
  have hpt : patchText oneLineCond = oneLineCond := patchText_noop h1 h2
  refine ⟨occurs_iff.mpr rfl, hpt, ?_, ?_⟩
  · rw [hpt]; exact not_occurs rfl
  · rw [hpt]; exact not_occurs rfl

/-- C4 (amended): for any input text that contains the full old close-after-
action block (whose condition lists only Open, RunAsAdmin, OpenPrivate), the
patched text contains the extended condition listing those three plus
OpenWith, OpenLocation, OpenInTerminal, OpenInExplorer, OpenInVSCode,
EditInEditor and SendByEmail, and the added else branch that emits the
"VS Code introuvable" notification when an OpenInVSCode action failed. -/
theorem c4_full_block_extends (T : String) (h : occursS old_close T) :
    occursS extendedCond (patchText T) ∧ occursS elseBranch (patchText T) := by
  have hkeep : occurs p2L (pyReplaceL p1L r1L T.toList) := f1_keeps_p2 _ h
  have hstep2 : occurs r2L (patchText T).toList := by
    rw [patchText_toList]
    exact replace_hits p2L_ne _ hkeep
  exact ⟨occurs_factor (occurs_iff.mpr occB_ext_r2) hstep2,
    occurs_factor (occurs_iff.mpr occB_else_r2) hstep2⟩

theorem c4_full_block_extends_w :
    occursS old_close old_close ∧
    (occursS extendedCond (patchText old_close) ∧ occursS elseBranch (patchText old_close)) :=
  ⟨occurs_refl _, c4_full_block_extends old_close (occurs_refl _)⟩

/-- C5: the script applies the rules strictly in declared order, each on the
output of the previous one: the final text is the sequential composition
replace(replace(T, old_notif, new_notif), old_close, new_close). -/
theorem c5_rules_in_declared_order (T : String) :
    patchText T = pyReplace old_close new_close (pyReplace old_notif new_notif T) ∧
    rules = [(old_notif, new_notif), (old_close, new_close)] :=
  ⟨rfl, rfl⟩

/-- C6: each rule replaces every occurrence of its exact pattern, not only the
first: no occurrence of a rule's pattern survives its application, and a text
made of two copies of a pattern becomes two copies of the replacement. -/
theorem c6_replaces_every_occurrence (T : String) :
    ¬ occursS old_notif (pyReplace old_notif new_notif T) ∧
    ¬ occursS old_close (pyReplace old_close new_close T) ∧
    pyReplace old_notif new_notif (old_notif ++ old_notif) = new_notif ++ new_notif ∧
    pyReplace old_close new_close (old_close ++ old_close) = new_close ++ new_close := by
  refine ⟨f1_free T.toList, f2_free T.toList, ?_, ?_⟩
  · apply toList_inj
    show pyReplaceL p1L r1L (old_notif ++ old_notif).toList = (new_notif ++ new_notif).toList
    rw [toList_append, toList_append]
    exact pyReplaceL_double p1L_ne
  · apply toList_inj
    show pyReplaceL p2L r2L (old_close ++ old_close).toList = (new_close ++ new_close).toList
    rw [toList_append, toList_append]
    exact pyReplaceL_double p2L_ne

/-- C7 counterexample: the text nearMissNotif ++ old_notif contains a block
differing from old_notif by one whitespace character only, yet the rule does
change that text (the exact pattern also occurs elsewhere in it), so "the rule
contributes no change" fails for that input. -/
theorem c7_near_miss_cx :
    occursS nearMissNotif (nearMissNotif ++ old_notif) ∧
    pyReplace old_notif new_notif (nearMissNotif ++ old_notif) ≠ nearMissNotif ++ old_notif := by
  constructor
  · exact ⟨[], old_notif.toList, by rw [toList_append]; simp⟩
  · intro hEq
    have hEq' : pyReplaceL p1L r1L (nearMissNotif ++ old_notif).toList =
        (nearMissNotif ++ old_notif).toList := congrArg String.toList hEq
    have hocc : occurs p1L (nearMissNotif ++ old_notif).toList :=
      ⟨nearMissNotif.toList, [], by rw [toList_append]; simp⟩
    have hfree := f1_free (nearMissNotif ++ old_notif).toList
    rw [hEq'] at hfree
    exact hfree hocc

/-- C7 (amended): matching is exact literal matching: a block with one
whitespace character removed from a pattern is never matched, and a rule
leaves a text unchanged whenever its exact pattern occurs nowhere in that
text, in particular a text whose only candidate block is such a near miss. -/
theorem c7_exact_literal_matching :
    (∀ T : String, occursS nearMissNotif T → ¬ occursS old_notif T →
      pyReplace old_notif new_notif T = T) ∧
    (∀ T : String, occursS nearMissClose T → ¬ occursS old_close T →
      pyReplace old_close new_close T = T) ∧
    ¬ occursS old_notif nearMissNotif ∧ ¬ occursS old_close nearMissClose := by
  refine ⟨?_, ?_, not_occurs rfl, not_occurs rfl⟩
  · intro T _ h
    apply toList_inj
    show pyReplaceL p1L r1L T.toList = T.toList
    exact pyReplaceL_noop p1L_ne _ h
  · intro T _ h
    apply toList_inj
    show pyReplaceL p2L r2L T.toList = T.toList
    exact pyReplaceL_noop p2L_ne _ h

theorem c7_exact_literal_matching_w :
    (occursS nearMissNotif nearMissNotif ∧ ¬ occursS old_notif nearMissNotif ∧
      pyReplace old_notif new_notif nearMissNotif = nearMissNotif) ∧
    (occursS nearMissClose nearMissClose ∧ ¬ occursS old_close nearMissClose ∧
      pyReplace old_close new_close nearMissClose = nearMissClose) := by
  have h1 : ¬ occursS old_notif nearMissNotif := not_occurs rfl
  have h2 : ¬ occursS old_close nearMissClose := not_occurs rfl
  exact ⟨⟨occurs_refl _, h1, c7_exact_literal_matching.1 nearMissNotif (occurs_refl _) h1⟩,
    ⟨occurs_refl _, h2, c7_exact_literal_matching.2.1 nearMissClose (occurs_refl _) h2⟩⟩

/-- C8: a pattern not being found is not an error: for every input text the
run completes and prints the single confirmation line
"ViewModel updated successfully". -/
theorem c8_always_prints_success (T : String) :
    (runPatcher T).stdout = [confirmationLine] ∧
    confirmationLine = "ViewModel updated successfully" :=
  ⟨rfl, rfl⟩

/-- C9 counterexample: a BOM-prefixed file with a lone LF newline contains
neither pattern, yet reading it and writing it back is not byte-identical:
the text-mode write re-encodes the newline as CRLF. -/
theorem c9_newline_cx :
    bomLfFile.toList.head? = some bomChar ∧
    ¬ occursS old_notif bomLfFile ∧ ¬ occursS old_close bomLfFile ∧
    runOnFile bomLfFile ≠ bomLfFile ∧
    runOnFile bomLfFile = ⟨bomChar :: 'a' :: '\r' :: '\n' :: 'b' :: []⟩ := by
  refine ⟨rfl, not_occurs rfl, not_occurs rfl, by decide, by decide⟩

/-- C9 (amended): reading a BOM-prefixed file whose text contains neither
pattern and writing it back is byte-identical provided the file's newlines are
all CRLF pairs: the BOM stripped by the utf-8-sig read is re-emitted by the
write, and each CRLF decodes to LF and is re-encoded as CRLF; a BOM file with
a lone LF or CR is instead rewritten with translated newlines.  (Modelled on
decoded code points; the UTF-8 byte encoding is a function of the code-point
sequence.) -/
theorem c9_bom_roundtrip (F : String) (hb : F.toList.head? = some bomChar)
    (hn : crlfNormalB F.toList = true)
    (h1 : ¬ occursS old_notif (readFile F)) (h2 : ¬ occursS old_close (readFile F)) :
    runOnFile F = F := by
  apply toList_inj
  cases hF : F.toList with
  | nil => rw [hF] at hb; simp at hb
  | cons c cs =>
    rw [hF] at hb hn
    simp at hb
    subst hb
    show bomChar :: writeNewlines (patchText (readFile F)).toList = bomChar :: cs
    have hbr : bomChar ≠ '\r' := by decide
    have hbn : bomChar ≠ '\n' := by decide
    have hn' : crlfNormalB cs = true := by rwa [crlfNormalB_cons hbr hbn] at hn
    have hreadF : (readFile F).toList = readNewlines cs := by
      show readNewlines (readUtf8SigL F.toList) = readNewlines cs
      rw [hF]
      simp [readUtf8SigL]
    have h1' : ¬ occurs p1L (readNewlines cs) := fun hc =>
      h1 (by show occurs p1L (readFile F).toList; rw [hreadF]; exact hc)
    have h2' : ¬ occurs p2L (readNewlines cs) := fun hc =>
      h2 (by show occurs p2L (readFile F).toList; rw [hreadF]; exact hc)
    have hpt : (patchText (readFile F)).toList = readNewlines cs := by
      rw [patchText_toList, hreadF, pyReplaceL_noop p1L_ne _ h1', pyReplaceL_noop p2L_ne _ h2']
    rw [hpt, crlfRT hn']

theorem c9_bom_roundtrip_w :
    (bomFile.toList.head? = some bomChar ∧ crlfNormalB bomFile.toList = true ∧
      ¬ occursS old_notif (readFile bomFile) ∧ ¬ occursS old_close (readFile bomFile)) ∧
    runOnFile bomFile = bomFile := by
  have hb : bomFile.toList.head? = some bomChar := rfl
  have hn : crlfNormalB bomFile.toList = true := by decide
  have h1 : ¬ occursS old_notif (readFile bomFile) := not_occurs rfl
  have h2 : ¬ occursS old_close (readFile bomFile) := not_occurs rfl
  exact ⟨⟨hb, hn, h1, h2⟩, c9_bom_roundtrip bomFile hb hn h1 h2⟩

/-- C10 counterexample: on the BOM-less two-line text `lfFile` with a lone LF,
neither pattern occurs, yet the rewritten file is not the original with just a
BOM prepended: the text-mode write also expands the LF to CRLF. -/
theorem c10_newline_cx :
    lfFile.toList.head? ≠ some bomChar ∧
    ¬ occursS old_notif lfFile ∧ ¬ occursS old_close lfFile ∧
    runOnFile lfFile ≠ ⟨bomChar :: lfFile.toList⟩ ∧
    runOnFile lfFile = ⟨bomChar :: 'a' :: '\r' :: '\n' :: 'b' :: []⟩ := by
  refine ⟨by decide, not_occurs rfl, not_occurs rfl, by decide, by decide⟩

/-- C10 (amended): the utf-8-sig write always emits a BOM first, so every
rewritten file begins with U+FEFF; an input file that does not begin with a
BOM and whose text matches neither pattern comes out as the BOM followed by
the newline-translated original — a changed file — and equals exactly the
original with a BOM prepended when the original's newlines are all CRLF
pairs. -/
theorem c10_bom_always_prepended :
    (∀ F : String, (runOnFile F).toList.head? = some bomChar) ∧
    (∀ F : String, F.toList.head? ≠ some bomChar → ¬ occursS old_notif (readFile F) →
      ¬ occursS old_close (readFile F) →
      runOnFile F = ⟨bomChar :: writeNewlines (readNewlines F.toList)⟩ ∧
      runOnFile F ≠ F ∧
      (crlfNormalB F.toList = true → runOnFile F = ⟨bomChar :: F.toList⟩)) := by
  constructor
  · intro F; rfl
  · intro F hb h1 h2
    have hread : readUtf8SigL F.toList = F.toList := by
      cases hF : F.toList with
      | nil => rfl
      | cons c cs =>
        have hc : ¬ c = bomChar := fun hcb => hb (by rw [hF, hcb]; rfl)
        simp [readUtf8SigL, hc]
    have hreadF : (readFile F).toList = readNewlines F.toList := by
      show readNewlines (readUtf8SigL F.toList) = readNewlines F.toList
      rw [hread]
    have h1' : ¬ occurs p1L (readNewlines F.toList) := fun hc =>
      h1 (by show occurs p1L (readFile F).toList; rw [hreadF]; exact hc)
    have h2' : ¬ occurs p2L (readNewlines F.toList) := fun hc =>
      h2 (by show occurs p2L (readFile F).toList; rw [hreadF]; exact hc)
    have hpt : (patchText (readFile F)).toList = readNewlines F.toList := by
      rw [patchText_toList, hreadF, pyReplaceL_noop p1L_ne _ h1', pyReplaceL_noop p2L_ne _ h2']
    have hmain : runOnFile F = ⟨bomChar :: writeNewlines (readNewlines F.toList)⟩ := by
      apply toList_inj
      show bomChar :: writeNewlines (patchText (readFile F)).toList =
        bomChar :: writeNewlines (readNewlines F.toList)
      rw [hpt]
    refine ⟨hmain, ?_, ?_⟩
    · intro hEq
      apply hb
      rw [← hEq]
      rfl
    · intro hcrlf
      rw [hmain, crlfRT hcrlf]

theorem c10_bom_always_prepended_w :
    (("hi" : String).toList.head? ≠ some bomChar ∧ crlfNormalB ("hi" : String).toList = true ∧
      ¬ occursS old_notif (readFile "hi") ∧ ¬ occursS old_close (readFile "hi")) ∧
    (runOnFile "hi" = ⟨bomChar :: writeNewlines (readNewlines ("hi" : String).toList)⟩ ∧
      runOnFile "hi" ≠ "hi" ∧ runOnFile "hi" = ⟨bomChar :: ("hi" : String).toList⟩) := by
  have hb : ("hi" : String).toList.head? ≠ some bomChar := by decide
  have hn : crlfNormalB ("hi" : String).toList = true := by decide
  have h1 : ¬ occursS old_notif (readFile "hi") := not_occurs rfl
  have h2 : ¬ occursS old_close (readFile "hi") := not_occurs rfl
  obtain ⟨ha, hne, hc⟩ := c10_bom_always_prepended.2 "hi" hb h1 h2
  exact ⟨⟨hb, hn, h1, h2⟩, ha, hne, hc hn⟩

end FixViewmodel
